import Mathlib

/-!
Verification of the context-retrieval and prompt-composition pipeline of a
retrieval-augmented restaurant chatbot backend (several evolving variants of
one Express server).

Shallow embedding conventions:
* JavaScript strings are modelled as Lean String values or character lists;
  JS string indices and lengths are counted in characters (the knowledge-base
  texts are in the Basic Multilingual Plane, where this agrees with UTF-16).
* JS numbers are modelled as real numbers where square roots occur (cosine
  scores) and as rationals where the code only adds fixed rational bonuses
  (lexical scores).
* Platform collaborators that are not part of the repository source
  (Intl.Segmenter, the Unicode letter and number classes, JSON.parse, the
  upstream HTTP endpoints, the file system) appear as explicit parameters of
  the embedded functions.
-/

/- ===================== basic character utilities ===================== -/

/-- White space as tested by the JS regex class used throughout the source
(space, tab, line feed, carriage return, vertical tab, form feed, no-break
space). -/
def isJsWs (c : Char) : Bool :=
  c = ' ' || c = '\t' || c = '\n' || c = '\r' ||
  c = '\u000B' || c = '\u000C' || c = ' '

/-- Lower-casing as used by the source (String.toLowerCase and the
case-insensitive regex flag), modelled for the scripts the knowledge base
uses: ASCII letters plus the two accented capitals of the menu pattern; the
remaining characters (Thai has no letter case) are unchanged. -/
def lcChar (c : Char) : Char :=
  if 'A' ≤ c ∧ c ≤ 'Z' then Char.ofNat (c.toNat + 32)
  else if c = 'Ú' then 'ú'
  else if c = 'Ù' then 'ù'
  else c

/-- JS String.prototype.trim, modelled over the character list. -/
def trimChars (cs : List Char) : List Char :=
  ((cs.dropWhile isJsWs).reverse.dropWhile isJsWs).reverse

/-- JS String.prototype.trim on strings. -/
def jsTrim (s : String) : String :=
  String.mk (trimChars s.data)

/-- Joining a list of character lists with a separator, as JS Array.join. -/
def joinSep (sep : List Char) : List (List Char) → List Char
  | [] => []
  | [x] => x
  | x :: y :: xs => x ++ sep ++ joinSep sep (y :: xs)

/-- Joining a list of strings with a separator, as JS Array.join. -/
def joinSepStr (sep : String) : List String → String
  | [] => ""
  | [x] => x
  | x :: y :: xs => x ++ sep ++ joinSepStr sep (y :: xs)

/-- Splitting on the regex of one line feed optionally preceded by a carriage
return, the line splitter used by getSectionByHeader and
extractRelevantContext (source split on the regex CR-optional LF). -/
def splitNLChars : List Char → List Char → List (List Char)
  | [], acc => [acc.reverse]
  | '\r' :: '\n' :: rest, acc => acc.reverse :: splitNLChars rest []
  | '\n' :: rest, acc => acc.reverse :: splitNLChars rest []
  | c :: rest, acc => splitNLChars rest (c :: acc)

/-- The document split into lines. -/
def splitNewlines (s : String) : List String :=
  (splitNLChars s.data []).map String.mk

/- ===================== chunk splitter (C2) ===================== -/

/-- Faithful model of the split regex of chunkTextBySection and splitSections:
the text is cut at every line feed that is immediately followed by a number
sign and a space (the lookahead does not consume those two characters).
The accumulator holds the current fragment reversed. -/
def splitRawKB : List Char → List Char → List (List Char)
  | [], acc => [acc.reverse]
  | '\n' :: '#' :: ' ' :: rest, acc => acc.reverse :: splitRawKB ('#' :: ' ' :: rest) []
  | c :: rest, acc => splitRawKB rest (c :: acc)

/-- chunkTextBySection from server.js (identical to splitSections of the
JSON-guarded variant): split at headings, trim each fragment, drop empties. -/
def chunkTextBySection (text : String) : List String :=
  (((splitRawKB text.data []).map (fun cs => jsTrim (String.mk cs))).filter
    (fun s => s ≠ ""))

/-- Does a character list match the split pattern anywhere: a line feed
followed by a number sign and a space. -/
def startsBreak (l : List Char) : Bool :=
  decide (l.take 3 = ['\n', '#', ' '])

/-- True when the list contains a line feed immediately followed by a number
sign and a space, that is, an interior heading boundary. -/
def containsBreak : List Char → Bool
  | [] => false
  | c :: rest => startsBreak (c :: rest) || containsBreak rest

/-- Heading pattern asserted by the specification for the chunk splitter: one
to six number signs at line start (optionally followed by a space). -/
def specHeadingLine (s : String) : Bool :=
  let hs := s.data.takeWhile (fun c => c = '#')
  decide (1 ≤ hs.length ∧ hs.length ≤ 6)

/- ===================== truncation (C7) ===================== -/

/-- Faithful model of the replace of the truncation code: remove the suffix
matching one run of white space followed by a run of non white space at the
end of the string; when the string contains no white space at all the regex
does not match and nothing is removed. -/
def stripTailWordJS (cs : List Char) : List Char :=
  let r := cs.reverse
  let r1 := r.dropWhile (fun c => !isJsWs c)
  match r1 with
  | [] => cs
  | _ :: _ => (r1.dropWhile isJsWs).reverse

/-- The shared truncation step: slice to maxChars, strip the trailing partial
word, append the marker of a line feed and a horizontal ellipsis. -/
def cutAtWs (s : String) (maxChars : Nat) : String :=
  String.mk (stripTailWordJS (s.data.take maxChars)) ++ "\n…"

/-- takeContextLimit from the lexical variant (default maxChars 20000 at the
call sites that omit it). -/
def takeContextLimit (s : String) (maxChars : Nat) : String :=
  if s = "" then ""
  else if s.data.length ≤ maxChars then s
  else cutAtWs s maxChars

/- ============== section extractor and lexical retriever (C3, C4) ============== -/

/-- Substring containment over character lists (used to model regex tests that
search anywhere in the line). -/
def hasSub : List Char → List Char → Bool
  | _, [] => true
  | [], _ :: _ => false
  | h :: t, n => n.isPrefixOf (h :: t) || hasSub t n

/-- The menu keyword regex of the source (case insensitive): the Thai word for
menu, or the letters m e n followed by u, u-acute or u-grave. -/
def menuLike (s : String) : Bool :=
  let low := s.data.map lcChar
  hasSub low "เมนู".data || hasSub low "menu".data ||
  hasSub low "menú".data || hasSub low "menù".data

/-- The header test of getSectionByHeader: optional leading white space then at
least one number sign (the regex of one to six number signs followed by an
optional-white-space tail succeeds on any such line). -/
def isHeaderLine (s : String) : Bool :=
  match s.data.dropWhile isJsWs with
  | '#' :: _ => true
  | _ => false

/-- Index search starting at absolute index i, mirroring the indexed for loops
of getSectionByHeader. -/
def findIdxFrom (p : String → Bool) : Nat → List String → Option Nat
  | _, [] => none
  | i, l :: ls => if p l then some i else findIdxFrom p (i + 1) ls

/-- getSectionByHeader from the lexical variant: find the first header line
matching the pattern, return the lines up to (not including) the next header
line, joined with line feeds. -/
def getSectionByHeader (raw : String) (pat : String → Bool) : String :=
  let lines := splitNewlines raw
  match findIdxFrom (fun l => isHeaderLine l && pat l) 0 lines with
  | none => ""
  | some s =>
    let e := match findIdxFrom isHeaderLine (s + 1) (lines.drop (s + 1)) with
             | none => lines.length
             | some j => j
    joinSepStr "\n" ((lines.drop s).take (e - s))

/-- The canonical-token table CANON of the source, folding foreign-language
terms to Thai base tokens. -/
def canon (t : String) : String :=
  match t with
  | "line" => "line"
  | "tel" => "โทร"
  | "phone" => "โทร"
  | "contact" => "ติดต่อ"
  | "facebook" => "facebook"
  | "instagram" => "ig"
  | "ig" => "ig"
  | "opening" => "เปิด"
  | "open" => "เปิด"
  | "close" => "ปิด"
  | "closing" => "ปิด"
  | "hours" => "เวลา"
  | "hour" => "เวลา"
  | "time" => "เวลา"
  | "times" => "เวลา"
  | "menu" => "เมนู"
  | "menú" => "เมนู"
  | "menù" => "เมนู"
  | "price" => "ราคา"
  | "cost" => "ราคา"
  | "promotion" => "โปรโมชัน"
  | "discount" => "โปรโมชัน"
  | "reservation" => "จอง"
  | "booking" => "จอง"
  | "walkin" => "คิว"
  | "walk" => "คิว"
  | "address" => "ที่อยู่"
  | "location" => "ที่อยู่"
  | "map" => "แผนที่"
  | "branch" => "สาขา"
  | _ => t

/-- Splitting on runs of characters outside the word class, dropping empty
fragments (the WORD_SPLIT regex followed by the truthiness filter). The word
class, the Unicode letter and number property, is a platform table and is
passed in as the predicate wc. -/
def splitNonWordAux (wc : Char → Bool) : List Char → List Char → List (List Char)
  | [], acc => if acc = [] then [] else [acc.reverse]
  | c :: rest, acc =>
    if wc c then splitNonWordAux wc rest (c :: acc)
    else if acc = [] then splitNonWordAux wc rest []
    else acc.reverse :: splitNonWordAux wc rest []

/-- tokenize from the lexical variant: segment the text (seg models the Thai
Intl.Segmenter, a platform collaborator), join the segments with spaces, lower
case, split on non-word runs, drop empties, fold through the canonical table. -/
def tokenize (seg : String → List String) (wc : Char → Bool) (text : String) :
    List String :=
  let joined := joinSepStr " " (seg text)
  (splitNonWordAux wc (joined.data.map lcChar) []).map (fun cs => canon (String.mk cs))

/-- The booster token set used in strict knowledge-base mode. -/
def boosters (askKB : Bool) : List String :=
  if askKB then
    ["เวลา", "เปิด", "ปิด", "กี่โมง", "เมนู", "ราคา", "โปรโมชัน", "จอง",
     "ที่อยู่", "ติดต่อ", "line", "facebook", "ig"]
  else []

/-- The fact-like colon regex: a colon (ASCII or full width) with some
non-white-space character after it. -/
def hasFactColon : List Char → Bool
  | [] => false
  | c :: rest =>
    (decide (c = ':' ∨ c = '：') && rest.any (fun d => !isJsWs d)) || hasFactColon rest

/-- One alternative of the opening-hours regex matched at the current
position: the Thai word for time, optional white space, then the Thai word
for open or for close; or the Thai phrase for business hours. -/
def hoursPatAt (cs : List Char) : Bool :=
  ("เวลา".data.isPrefixOf cs &&
    (let r := (cs.drop 4).dropWhile isJsWs
     "เปิด".data.isPrefixOf r || "ปิด".data.isPrefixOf r)) ||
  "เวลาทำการ".data.isPrefixOf cs

/-- The opening-hours regex searched anywhere in the line (the explicit
open-dash-close alternative is subsumed by the zero-white-space case). -/
def hasHoursPat : List Char → Bool
  | [] => false
  | c :: rest => hoursPatAt (c :: rest) || hasHoursPat rest

/-- Per-line relevance score of extractRelevantContext: one point per distinct
query token present in the token set of the line, one bonus point when that
token is a booster, half a point for a fact-like colon, two points for the
opening-hours pattern in strict mode. Summing over the deduplicated query
tokens models the iteration over the JS Set (the sum does not depend on the
iteration order). -/
def lineScore (seg : String → List String) (wc : Char → Bool) (qSet : List String)
    (askKB : Bool) (line : String) : ℚ :=
  let lTokens := tokenize seg wc line
  (qSet.map (fun t =>
    if t ∈ lTokens then (1 : ℚ) + (if t ∈ boosters askKB then 1 else 0) else 0)).sum
  + (if hasFactColon line.data then (0.5 : ℚ) else 0)
  + (if askKB ∧ hasHoursPat line.data then (2 : ℚ) else 0)

/-- The scoring loop of extractRelevantContext: lines whose token list is
empty are skipped, lines with score zero are not pushed; the index i is the
absolute line number. -/
def scoredLinesAux (seg : String → List String) (wc : Char → Bool)
    (qSet : List String) (askKB : Bool) : Nat → List String → List (Nat × ℚ)
  | _, [] => []
  | i, l :: ls =>
    if tokenize seg wc l = [] then scoredLinesAux seg wc qSet askKB (i + 1) ls
    else if 0 < lineScore seg wc qSet askKB l then
      (i, lineScore seg wc qSet askKB l) :: scoredLinesAux seg wc qSet askKB (i + 1) ls
    else scoredLinesAux seg wc qSet askKB (i + 1) ls

/-- The scored lines of a document for a query. -/
def scoredLines (seg : String → List String) (wc : Char → Bool) (raw q : String)
    (askKB : Bool) : List (Nat × ℚ) :=
  scoredLinesAux seg wc ((tokenize seg wc q).dedup) askKB 0 (splitNewlines raw)

/-- The descending comparator of the source sort on scored lines (the JS sort
comparator subtracting scores, which is a stable descending sort by score). -/
def descR (a b : Nat × ℚ) : Prop := b.2 ≤ a.2

instance : DecidableRel descR := fun a b => inferInstanceAs (Decidable (b.2 ≤ a.2))

/-- The eleven-line window around an anchor line: five lines before (clamped
at zero by truncated subtraction) up to, not including, six lines after
(clamped at the document length). -/
def anchorWindow (lines : List String) (i : Nat) : String :=
  joinSepStr "\n" ((lines.drop (i - 5)).take (min lines.length (i + 6) - (i - 5)))

/-- The general, token-overlap case of extractRelevantContext: discard the
zero-scored lines, sort descending by score (stable), expand the top three
anchors into windows, join with the separator marker, truncate to maxChars. -/
def lexGeneral (seg : String → List String) (wc : Char → Bool) (raw q : String)
    (maxChars : Nat) (askKB : Bool) : String :=
  let lines := splitNewlines raw
  let scored := scoredLines seg wc raw q askKB
  if scored = [] then ""
  else
    let sorted := List.insertionSort descR scored
    let chunks := (sorted.take 3).map (fun a => anchorWindow lines a.1)
    let ctx := joinSepStr "\n---\n" chunks
    if maxChars < ctx.data.length then cutAtWs ctx maxChars else ctx

/-- extractRelevantContext from the lexical variant: empty document gives the
empty window; in strict mode a menu query returns the whole menu section
verbatim (truncated to maxChars) when it exists and is non blank; otherwise
the token-overlap general case runs. -/
def extractRelevantContext (seg : String → List String) (wc : Char → Bool)
    (raw q : String) (maxChars : Nat) (askKB : Bool) : String :=
  if raw = "" then ""
  else if askKB && menuLike q then
    let sec := getSectionByHeader raw menuLike
    if jsTrim sec ≠ "" then
      (if maxChars < sec.data.length then cutAtWs sec maxChars else sec)
    else lexGeneral seg wc raw q maxChars askKB
  else lexGeneral seg wc raw q maxChars askKB

/- ===================== cosine similarity (C1, C5, C8) ===================== -/

/-- The dot-product accumulator of the cosine loops; the iteration stops at the
end of the shorter list (the safeCosine loop runs to the minimum length; the
plain cosine loop runs over the first vector and is used only on vectors of
equal length, an out-of-range JS index would poison the result with NaN,
which has no counterpart in ℝ). -/
def dot : List ℝ → List ℝ → ℝ
  | x :: xs, y :: ys => x * y + dot xs ys
  | _, _ => 0

/-- Sum of squares of a vector, the norm accumulators of the cosine loops. -/
def sumSq : List ℝ → ℝ
  | [] => 0
  | x :: xs => x * x + sumSq xs

/-- cosine from the embedding variants: dot product over the length of the
first vector, divided by the product of the square roots of the two
accumulated squared norms plus the epsilon 1e-8 (both norm loops are indexed
by the first vector, hence the take on b). -/
noncomputable def cosine (a b : List ℝ) : ℝ :=
  dot a b / (Real.sqrt (sumSq a) * Real.sqrt (sumSq (b.take a.length)) + 1e-8)

/-- safeCosine from the JSON-guarded variant: minus one when either argument
is not a non-empty array; otherwise the same formula with all three loops
stopped at the minimum length. -/
noncomputable def safeCosine (a b : List ℝ) : ℝ :=
  if a = [] ∨ b = [] then -1
  else
    dot a b /
      (Real.sqrt (sumSq (a.take (min a.length b.length))) *
        Real.sqrt (sumSq (b.take (min a.length b.length))) + 1e-8)

/-- safeCosine applied to possibly missing embeddings: a null embedding is not
an array, so the guard returns minus one. -/
noncomputable def safeCosineOpt (a b : Option (List ℝ)) : ℝ :=
  match a, b with
  | some a, some b => safeCosine a b
  | _, _ => -1

/- ===================== embedding retriever (C1) ===================== -/

/-- One knowledge-base chunk of the embedding variants (text plus its cached
embedding vector). -/
structure EmbEntry where
  text : String
  embedding : List ℝ

/-- The descending comparator of the sort on scored chunks. -/
def descC (a b : EmbEntry × ℝ) : Prop := b.2 ≤ a.2

noncomputable instance : DecidableRel descC :=
  fun a b => Real.decidableLE b.2 a.2

/-- The top-chunk selection of the embedding chat handler: score every chunk
by cosine against the query embedding, sort descending (stable), keep the
scores strictly above the threshold, keep at most four. The threshold is the
literal 0.75 in server.js and 0.9 in the version-1.1 variant. -/
noncomputable def embTop (th : ℝ) (qEmb : List ℝ) (kb : List EmbEntry) :
    List (EmbEntry × ℝ) :=
  (((List.insertionSort descC
      (kb.map (fun it => (it, cosine qEmb it.embedding)))).filter
    (fun s => decide (th < s.2))).take 4)

/-- Enumeration with ordinal markers and blank-line separators, the context
assembly of the embedding chat handler. -/
noncomputable def embContext (th : ℝ) (qEmb : List ℝ) (kb : List EmbEntry) : String :=
  joinSepStr "\n\n"
    ((embTop th qEmb kb).enum.map
      (fun p => "【" ++ toString (p.1 + 1) ++ "】\n" ++ p.2.1.text))

/-- The fixed no-information reply of the embedding variants. -/
def noInfoMessage : String := "ไม่มีข้อมูลในระบบ กรุณาติดต่อร้าน (โทร/LINE/FB)"

/-- Outcome of the embedding chat handler after retrieval: either the fixed
reply returned immediately, or an upstream chat-completion call carrying the
assembled context. -/
inductive EmbOutcome where
  | fixedReply (msg : String)
  | completionCall (context : String)
deriving DecidableEq

/-- The branch of the embedding chat handler after context assembly: an empty
context short-circuits into the fixed no-information reply and no upstream
chat-completion call is made; otherwise the completion endpoint is called
with the context. -/
noncomputable def embChatStep (th : ℝ) (qEmb : List ℝ) (kb : List EmbEntry) :
    EmbOutcome :=
  let context := embContext th qEmb kb
  if context = "" then .fixedReply noInfoMessage
  else .completionCall context

/- ===================== JSON answer guard (C5, C6) ===================== -/

/-- JSON values as produced by JSON.parse (numbers carried as rationals; the
duplicate-key and number-formatting corners of the platform parser are not
exercised by the guard logic under verification). -/
inductive Json where
  | null
  | bool (b : Bool)
  | num (q : ℚ)
  | str (s : String)
  | arr (xs : List Json)
  | obj (kvs : List (String × Json))

/-- Field lookup on parsed JSON: only objects have fields; later duplicate
keys win as in JSON.parse. -/
def getField : Json → String → Option Json
  | .obj kvs, k => lookupLast kvs k
  | _, _ => none
where
  lookupLast : List (String × Json) → String → Option Json
    | [], _ => none
    | (k1, v) :: rest, k =>
      match lookupLast rest k with
      | some r => some r
      | none => if k1 = k then some v else none

/-- JS truthiness of a JSON value. -/
def truthy : Json → Bool
  | .null => false
  | .bool b => b
  | .num q => decide (q ≠ 0)
  | .str s => decide (s ≠ "")
  | .arr _ => true
  | .obj _ => true

/-- Truthiness of an optionally present value (undefined is falsy). -/
def optTruthy : Option Json → Bool
  | none => false
  | some v => truthy v

/-- JS String coercion of a JSON value, needed for the answer field (the
number case is an approximation of JS number formatting; the theorems below
only exercise the string case). -/
def jsString : Json → String
  | .null => "null"
  | .bool b => if b then "true" else "false"
  | .num q => toString q
  | .str s => s
  | .arr _ => ""
  | .obj _ => ""

/-- The fixed fallback reply of the JSON-guarded variant. -/
def jsonFallbackMsg : String := "ไม่มีข้อมูลในระบบ กรุณาติดต่อร้านตามช่องทางในบริบท"

/-- The structured-answer guard of the JSON-guarded chat handler: the payload
is the parse result of the model output (none models a parse failure, which
the source absorbs by leaving the payload an empty object); a truthy
no-answer field or a missing or falsy answer field yields the fixed fallback,
otherwise the reply is the string coercion of the answer field, trimmed. -/
def guardReply (payload : Option Json) : String :=
  if optTruthy (payload.bind (fun j => getField j "no_answer")) ||
     !optTruthy (payload.bind (fun j => getField j "answer")) then jsonFallbackMsg
  else
    match payload.bind (fun j => getField j "answer") with
    | some v => jsTrim (jsString v)
    | none => jsonFallbackMsg

/- ============== JSON-guarded chat handler and null embeddings (C5) ============== -/

/-- One knowledge-base chunk of the JSON-guarded variant; a missing embedding
(upstream failure) is null. -/
structure P1Entry where
  text : String
  embedding : Option (List ℝ)

/-- The embed wrapper of the JSON-guarded variant, as a function of the
upstream response: an error gives one null per input; a successful response
that is shorter than the input list is padded with nulls. -/
def embedResultModel (resp : Except Unit (List (List ℝ))) (texts : List String) :
    List (Option (List ℝ)) :=
  match resp with
  | .error _ => List.replicate texts.length none
  | .ok arr => arr.map some ++ List.replicate (texts.length - arr.length) none

/-- One scored candidate of the JSON-guarded retrieval (index, score, text). -/
structure P1Cand where
  idx : Nat
  score : ℝ
  text : String

/-- The scoring map of the JSON-guarded retrieval with absolute indices. -/
noncomputable def p1ScoredAux (qEmb : List ℝ) : Nat → List P1Entry → List P1Cand
  | _, [] => []
  | i, e :: es =>
    ⟨i, safeCosineOpt (some qEmb) e.embedding, e.text⟩ :: p1ScoredAux qEmb (i + 1) es

/-- The descending comparator of the sort on JSON-guarded candidates. -/
def descP (a b : P1Cand) : Prop := b.score ≤ a.score

noncomputable instance : DecidableRel descP :=
  fun a b => Real.decidableLE b.score a.score

/-- The top-candidate selection of the JSON-guarded retrieval: score, keep the
strictly positive scores (dropping every chunk whose embedding failed), sort
descending, keep at most four. -/
noncomputable def p1Top (qEmb : List ℝ) (kb : List P1Entry) : List P1Cand :=
  ((List.insertionSort descP
      ((p1ScoredAux qEmb 0 kb).filter (fun x => decide ((0 : ℝ) < x.score)))).take 4)

/-- The context of the JSON-guarded retrieval: empty when the query embedding
itself is null, otherwise the enumerated top candidates. -/
noncomputable def p1Context (qEmb : Option (List ℝ)) (kb : List P1Entry) : String :=
  match qEmb with
  | none => ""
  | some q =>
    joinSepStr "\n\n"
      ((p1Top q kb).enum.map
        (fun p => "【" ++ toString (p.1 + 1) ++ "】\n" ++ p.2.text))

/-- HTTP outcome of the JSON-guarded chat route. -/
inductive P1Result where
  | missingKey
  | badRequest
  | reply (s : String)
  | serverError

/-- The JSON-guarded chat route: guard the credential and the message, build
the context (unused by the reply value, which depends only on the completion
response), call the completion endpoint (its outcome is the chat parameter; a
thrown transport error maps to the 500 branch), then apply the structured
answer guard to the trimmed message content. The parse parameter models
JSON.parse, returning none on a parse failure. -/
noncomputable def p1ChatHandler (parse : String → Option Json) (apiKey : Bool)
    (rawMessage : String) (kb : List P1Entry) (qEmb : Option (List ℝ))
    (chat : Except Unit (Option String)) : P1Result :=
  let message := jsTrim rawMessage
  if apiKey = false then .missingKey
  else if message = "" then .badRequest
  else
    let _context := p1Context qEmb kb
    match chat with
    | .error _ => .serverError
    | .ok content =>
      let rawText := (content.map jsTrim).getD ""
      .reply (guardReply (parse rawText))

/- ===================== knowledge-base loader state (C9) ===================== -/

/-- The module-level mutable state of the embedding variants: the chunk cache
KB and the last observed modification time (modelled as an integer tick). -/
structure EmbKBState where
  kb : List P1Entry
  lastKBModified : Int

/-- Pairing chunks with their embeddings by index, the map building KB (a
missing index gives an undefined, hence null, embedding). -/
def attachEmbs (embs : List (List ℝ)) : Nat → List String → List P1Entry
  | _, [] => []
  | i, t :: ts => ⟨t, embs.get? i⟩ :: attachEmbs embs (i + 1) ts

/-- ensureKBLoaded of the embedding variants as a state transition. The file
argument is none when the knowledge file is absent, otherwise its
modification time and content. The embeds argument is the outcome of the
chunk-embedding call. The returned flag is true when the call threw. The
crucial source order is kept: the new modification time is recorded before
the embedding call is awaited, so a throwing call leaves the previous chunks
in KB with the new timestamp already stored. -/
def ensureKBLoadedStep (file : Option (Int × String))
    (embeds : Except Unit (List (List ℝ))) (st : EmbKBState) : EmbKBState × Bool :=
  match file with
  | none => ({ kb := [], lastKBModified := st.lastKBModified }, false)
  | some (mtime, raw) =>
    if mtime = st.lastKBModified then (st, false)
    else
      match embeds with
      | .error _ => ({ st with lastKBModified := mtime }, true)
      | .ok embs =>
        ({ kb := attachEmbs embs 0 (chunkTextBySection raw), lastKBModified := mtime },
         false)

/- ===================== language guard (C10) ===================== -/

/-- The closed set of language codes of the post-hoc language-guard variant. -/
inductive Lang where
  | th | en | es | it | zh | ja | ko
deriving DecidableEq

/-- Containment of a word with word boundaries, case insensitive: the token
appears in the split of the lowered text on non-word characters (modelling
the word-boundary regexes of the language tests over the ASCII word class). -/
def hasWordToken (t w : String) : Bool :=
  (splitNonWordAux (fun c => c.isAlphanum || c = '_') (t.data.map lcChar) []).any
    (fun cs => decide (cs = w.data))

/-- Character-range test against a closed interval of code points. -/
def anyInRange (t : String) (lo hi : Nat) : Bool :=
  t.data.any (fun c => decide (lo ≤ c.toNat ∧ c.toNat ≤ hi))

/-- isTextInLang from the post-hoc language-guard variant: script presence for
Thai, Japanese, Chinese and Korean; diacritics or stop words for Spanish and
Italian; for English some ASCII letter and none of the other scripts. -/
def isTextInLang (t : String) (lang : Lang) : Bool :=
  match lang with
  | .th => anyInRange t 0x0E01 0x0E59
  | .ja => anyInRange t 0x3040 0x30FF
  | .zh => anyInRange t 0x4E00 0x9FFF
  | .ko => anyInRange t 0xAC00 0xD7A3
  | .es =>
    t.data.any (fun c => decide ((lcChar c) ∈ "ñáéíóúü¿¡".data)) ||
    ["el", "la", "los", "las", "de", "del", "y", "que"].any (hasWordToken t)
  | .it =>
    ["il", "lo", "la", "gli", "le", "del", "della", "dei", "degli", "e", "che"].any
      (hasWordToken t) ||
    t.data.any (fun c => decide ((lcChar c) ∈ "àèéìòù".data))
  | .en =>
    t.data.any (fun c => ('A' ≤ c ∧ c ≤ 'Z') || ('a' ≤ c ∧ c ≤ 'z')) &&
    !(anyInRange t 0x0E01 0x0E59 || anyInRange t 0x3040 0x30FF ||
      anyInRange t 0x4E00 0x9FFF || anyInRange t 0xAC00 0xD7A3)

/-- The fixed English fallback of the post-hoc language-guard variant. -/
def cantAnswerMsg : String := "Sorry, I can’t answer that right now."

/-- The reply finalisation of the post-hoc language-guard variant: trim the
completion content (empty when absent), run the translation guard only when
the reply is non-empty and fails the language test (the translate parameter
models the second upstream call), and substitute the fixed English fallback
for an empty reply. Returns the reply field and whether the translation call
was made. -/
def langGuardStep (translate : String → Lang → String) (lang : Lang)
    (content : Option String) : String × Bool :=
  let reply := (content.map jsTrim).getD ""
  if reply ≠ "" ∧ isTextInLang reply lang = false then
    let r2 := translate reply lang
    ((if r2 = "" then cantAnswerMsg else r2), true)
  else ((if reply = "" then cantAnswerMsg else reply), false)

/- ===================== helper lemmas ===================== -/

theorem dot_comm : ∀ a b : List ℝ, dot a b = dot b a
  | [], [] => rfl
  | [], _ :: _ => rfl
  | _ :: _, [] => rfl
  | x :: xs, y :: ys => by
    simp only [dot, dot_comm xs ys]
    ring

theorem dot_self (a : List ℝ) : dot a a = sumSq a := by
  induction a with
  | nil => rfl
  | cons x xs ih => simp [dot, sumSq, ih]

theorem sumSq_nonneg (a : List ℝ) : 0 ≤ sumSq a := by
  induction a with
  | nil => simp [sumSq]
  | cons x xs ih => simp only [sumSq]; nlinarith [sq_nonneg x]

theorem eps_pos : (0 : ℝ) < 1e-8 := by norm_num

/-- C8: the cosine-similarity scoring functions are symmetric (cosine on
vectors of equal length, safeCosine on any two vectors), and on a non-zero
vector the self score equals the squared norm divided by itself plus the
epsilon, hence lies strictly between zero and one (slightly below one). -/
theorem cosine_symm_and_self_score :
    (∀ a b : List ℝ, a.length = b.length → cosine a b = cosine b a) ∧
    (∀ a b : List ℝ, safeCosine a b = safeCosine b a) ∧
    (∀ a : List ℝ, 0 < sumSq a →
      cosine a a = sumSq a / (sumSq a + 1e-8) ∧
      0 < cosine a a ∧ cosine a a < 1) := by
  refine ⟨?_, ?_, ?_⟩
  · intro a b h
    simp only [cosine, h, List.take_length, dot_comm a b]
    rw [← h, List.take_length, mul_comm]
  · intro a b
    by_cases ha : a = []
    · by_cases hb : b = []
      · simp [safeCosine, ha, hb]
      · simp [safeCosine, ha, hb]
    · by_cases hb : b = []
      · simp [safeCosine, ha, hb]
      · simp only [safeCosine, ha, hb, or_false, false_or, if_neg]
        rw [dot_comm, min_comm, mul_comm]
  · intro a h
    have hd : cosine a a = sumSq a / (sumSq a + 1e-8) := by
      simp only [cosine, List.take_length, dot_self,
        Real.mul_self_sqrt (sumSq_nonneg a)]
    refine ⟨hd, ?_, ?_⟩
    · rw [hd]
      exact div_pos h (by linarith [eps_pos])
    · rw [hd]
      exact (div_lt_one (by linarith [eps_pos])).mpr (by linarith [eps_pos])

/-- Witness for C8 at concrete vectors. -/
theorem cosine_symm_and_self_score_witness :
    cosine [(1 : ℝ)] [(2 : ℝ)] = cosine [(2 : ℝ)] [(1 : ℝ)] ∧
    safeCosine [(1 : ℝ), (3 : ℝ)] [(2 : ℝ)] = safeCosine [(2 : ℝ)] [(1 : ℝ), (3 : ℝ)] ∧
    0 < cosine [(1 : ℝ)] [(1 : ℝ)] ∧ cosine [(1 : ℝ)] [(1 : ℝ)] < 1 :=
  ⟨cosine_symm_and_self_score.1 [1] [2] rfl,
   cosine_symm_and_self_score.2.1 [1, 3] [2],
   (cosine_symm_and_self_score.2.2 [1] (by norm_num [sumSq])).2.1,
   (cosine_symm_and_self_score.2.2 [1] (by norm_num [sumSq])).2.2⟩

/-- C1: in the embedding retriever, when no knowledge-base chunk scores
strictly above the threshold against the query embedding (0.75 in server.js,
0.9 in the version-1.1 variant; the threshold is the th parameter), the
assembled context is the empty string and the chat handler returns the fixed
no-information reply without making the upstream chat-completion call. -/
theorem embedding_threshold_short_circuit (th : ℝ) (qEmb : List ℝ)
    (kb : List EmbEntry) (h : ∀ e ∈ kb, cosine qEmb e.embedding ≤ th) :
    embContext th qEmb kb = "" ∧
    embChatStep th qEmb kb = EmbOutcome.fixedReply noInfoMessage := by
  have htop : embTop th qEmb kb = [] := by
    have hfil : (List.insertionSort descC
        (kb.map (fun it => (it, cosine qEmb it.embedding)))).filter
        (fun s => decide (th < s.2)) = [] := by
      refine List.filter_eq_nil_iff.mpr ?_
      intro x hx
      have hx2 : x ∈ kb.map (fun it => (it, cosine qEmb it.embedding)) :=
        (List.perm_insertionSort descC _).subset hx
      obtain ⟨e, he, rfl⟩ := List.mem_map.mp hx2
      simpa using not_lt.mpr (h e he)
    simp [embTop, hfil]
  have hctx : embContext th qEmb kb = "" := by
    simp [embContext, htop, joinSepStr]
  exact ⟨hctx, by simp [embChatStep, hctx]⟩

/-- Witness for C1: a one-chunk knowledge base whose chunk is orthogonal to
the query embedding, threshold 0.75. -/
theorem embedding_threshold_short_circuit_witness :
    embChatStep 0.75 [(1 : ℝ), 0] [⟨"t", [0, 1]⟩] =
      EmbOutcome.fixedReply noInfoMessage :=
  (embedding_threshold_short_circuit 0.75 [1, 0] [⟨"t", [0, 1]⟩]
    (by
      intro e he
      rw [List.mem_singleton] at he
      subst he
      show cosine [(1 : ℝ), 0] [0, 1] ≤ 0.75
      simp only [cosine, dot, sumSq]
      norm_num)).2

/-- C9: the embedding-variant knowledge-base loader is not atomic on error:
when the file has a new modification time and the chunk-embedding call
throws, the step has already recorded the new modification time while KB
still holds the previous chunks, the error propagates, and every later call
seeing the same modification time takes the no-change branch and does not
retry the failed load. -/
theorem ensureKBLoaded_not_atomic_on_error (st : EmbKBState) (mtime : Int)
    (raw : String) (h : mtime ≠ st.lastKBModified) :
    (ensureKBLoadedStep (some (mtime, raw)) (Except.error ()) st).1.lastKBModified
        = mtime ∧
    (ensureKBLoadedStep (some (mtime, raw)) (Except.error ()) st).1.kb = st.kb ∧
    (ensureKBLoadedStep (some (mtime, raw)) (Except.error ()) st).2 = true ∧
    ∀ (raw2 : String) (embeds2 : Except Unit (List (List ℝ))),
      ensureKBLoadedStep (some (mtime, raw2)) embeds2
          (ensureKBLoadedStep (some (mtime, raw)) (Except.error ()) st).1 =
        ((ensureKBLoadedStep (some (mtime, raw)) (Except.error ()) st).1, false) := by
  refine ⟨by simp [ensureKBLoadedStep, h], by simp [ensureKBLoadedStep, h],
    by simp [ensureKBLoadedStep, h], ?_⟩
  intro raw2 embeds2
  simp [ensureKBLoadedStep, h]

/-- Witness for C9 at a concrete state and modification time. -/
theorem ensureKBLoaded_not_atomic_on_error_witness :
    (ensureKBLoadedStep (some ((1 : Int), "x")) (Except.error ())
        ⟨[⟨"old", none⟩], 0⟩).1.lastKBModified = 1 ∧
    (ensureKBLoadedStep (some ((1 : Int), "x")) (Except.error ())
        ⟨[⟨"old", none⟩], 0⟩).1.kb = [⟨"old", none⟩] :=
  ⟨(ensureKBLoaded_not_atomic_on_error ⟨[⟨"old", none⟩], 0⟩ 1 "x" (by decide)).1,
   (ensureKBLoaded_not_atomic_on_error ⟨[⟨"old", none⟩], 0⟩ 1 "x" (by decide)).2.1⟩

/-- C10: in the post-hoc language-guard variant, when the completion content
is absent or trims to the empty string, the language check-and-retranslate
step is skipped (no second upstream call) and the reply field is exactly the
fixed English fallback, for every detected target language. -/
theorem lang_guard_empty_content (translate : String → Lang → String)
    (lang : Lang) (content : Option String)
    (h : (content.map jsTrim).getD "" = "") :
    langGuardStep translate lang content = (cantAnswerMsg, false) := by
  simp only [langGuardStep, h]
  simp

/-- Witness for C10 with absent content and Thai target language. -/
theorem lang_guard_empty_content_witness :
    langGuardStep (fun _ _ => "x") Lang.th none = (cantAnswerMsg, false) :=
  lang_guard_empty_content (fun _ _ => "x") Lang.th none rfl

/-- C6: the structured-answer guard maps a parse failure, a truthy no-answer
field, or a missing or falsy answer field to the fixed fallback string, and
otherwise replies with the trimmed answer string; malformed model output thus
never escapes the guard. -/
theorem structured_answer_guard (payload : Option Json) :
    (payload = none → guardReply payload = jsonFallbackMsg) ∧
    (∀ j, payload = some j → optTruthy (getField j "no_answer") = true →
      guardReply payload = jsonFallbackMsg) ∧
    (∀ j, payload = some j → optTruthy (getField j "answer") = false →
      guardReply payload = jsonFallbackMsg) ∧
    (∀ j s, payload = some j → optTruthy (getField j "no_answer") = false →
      getField j "answer" = some (Json.str s) → s ≠ "" →
      guardReply payload = jsTrim s) := by
  refine ⟨?_, ?_, ?_, ?_⟩
  · rintro rfl
    simp [guardReply, optTruthy]
  · rintro j rfl hno
    simp [guardReply, hno]
  · rintro j rfl hans
    simp [guardReply, hans]
  · rintro j s rfl hno hans hs
    have ht : optTruthy (getField j "answer") = true := by
      rw [hans]; simp [optTruthy, truthy, hs]
    simp only [guardReply, Option.some_bind]
    rw [hno, ht, hans]
    simp [jsString]

/-- Witness for C6 at the concrete examples of the claim. -/
theorem structured_answer_guard_witness :
    guardReply (some (Json.obj [("answer", Json.str "10:00-20:00")]))
        = "10:00-20:00" ∧
    guardReply none = jsonFallbackMsg ∧
    guardReply (some (Json.obj [("no_answer", Json.bool true)])) = jsonFallbackMsg :=
  ⟨((structured_answer_guard
        (some (Json.obj [("answer", Json.str "10:00-20:00")]))).2.2.2
      (Json.obj [("answer", Json.str "10:00-20:00")]) "10:00-20:00" rfl rfl
      rfl (by decide)).trans (by decide),
   (structured_answer_guard none).1 rfl,
   (structured_answer_guard (some (Json.obj [("no_answer", Json.bool true)]))).2.1
      (Json.obj [("no_answer", Json.bool true)]) rfl rfl⟩

theorem p1ScoredAux_mem (q : List ℝ) :
    ∀ (j : Nat) (kb : List P1Entry) (x : P1Cand), x ∈ p1ScoredAux q j kb →
      ∃ k e, kb[k]? = some e ∧ x.idx = j + k ∧
        x.score = safeCosineOpt (some q) e.embedding := by
  intro j kb
  induction kb generalizing j with
  | nil => intro x hx; simp [p1ScoredAux] at hx
  | cons e es ih =>
    intro x hx
    rw [p1ScoredAux, List.mem_cons] at hx
    rcases hx with rfl | hx
    · exact ⟨0, e, by simp, by simp, rfl⟩
    · obtain ⟨k, e1, hk, hidx, hsc⟩ := ih (j + 1) x hx
      exact ⟨k + 1, e1, by simpa using hk, by omega, hsc⟩

/-- C5: embedding failures never crash the JSON-guarded retrieval: a failed
embeddings call yields one null per input and a short response is padded with
nulls; a null embedding scores minus one through safeCosine; every candidate
selected for the context has strictly positive score, so chunks with null
embeddings are excluded from the top selection; and the chat route still
produces a reply (not a server error) whatever the query embedding outcome. -/
theorem embedding_failure_degrades :
    (∀ texts : List String,
      embedResultModel (Except.error ()) texts = List.replicate texts.length none) ∧
    (∀ (arr : List (List ℝ)) (texts : List String) (i : Nat),
      arr.length ≤ i → i < texts.length →
      (embedResultModel (Except.ok arr) texts)[i]? = some none) ∧
    (∀ (q : List ℝ) (emb : Option (List ℝ)), emb = none →
      safeCosineOpt (some q) emb = -1) ∧
    (∀ (q : List ℝ) (kb : List P1Entry) (x : P1Cand), x ∈ p1Top q kb →
      0 < x.score ∧ ∀ (i : Nat) (e : P1Entry), kb[i]? = some e →
        e.embedding = none → x.idx ≠ i) ∧
    (∀ (parse : String → Option Json) (rawMessage : String) (kb : List P1Entry)
      (qEmb : Option (List ℝ)) (content : Option String), jsTrim rawMessage ≠ "" →
      p1ChatHandler parse true rawMessage kb qEmb (Except.ok content) =
        P1Result.reply (guardReply (parse ((content.map jsTrim).getD "")))) := by
  refine ⟨fun _ => rfl, ?_, ?_, ?_, ?_⟩
  · intro arr texts i h1 h2
    rw [embedResultModel, List.getElem?_append_right (by simpa using h1)]
    simp only [List.length_map]
    rw [List.getElem?_replicate]
    rw [if_pos (by omega)]
  · rintro q emb rfl
    rfl
  · intro q kb x hx
    have hfil : x ∈ (p1ScoredAux q 0 kb).filter (fun x => decide ((0 : ℝ) < x.score)) :=
      (List.perm_insertionSort descP _).subset (List.mem_of_mem_take hx)
    rw [List.mem_filter] at hfil
    have hpos : (0 : ℝ) < x.score := by simpa using hfil.2
    refine ⟨hpos, ?_⟩
    intro i e hi hemb hidx
    obtain ⟨k, e1, hk, hki, hsc⟩ := p1ScoredAux_mem q 0 kb x hfil.1
    have : k = i := by omega
    subst this
    rw [hi] at hk
    cases hk
    rw [hsc, hemb] at hpos
    norm_num [safeCosineOpt] at hpos
  · intro parse rawMessage kb qEmb content h
    simp [p1ChatHandler, h]

/-- Witness for C5 at concrete inputs (failed query embedding, one-element
knowledge base with a null embedding, trivial parse). -/
theorem embedding_failure_degrades_witness :
    (embedResultModel (Except.ok [[(1 : ℝ)]]) ["a", "b"])[1]? = some none ∧
    p1ChatHandler (fun _ => none) true "hi" [⟨"t", none⟩] none (Except.ok none) =
      P1Result.reply jsonFallbackMsg :=
  ⟨embedding_failure_degrades.2.1 [[(1 : ℝ)]] ["a", "b"] 1 (by decide) (by decide),
   (embedding_failure_degrades.2.2.2.2 (fun _ => none) "hi" [⟨"t", none⟩] none
      none (by decide)).trans (by rfl)⟩

theorem dropWhile_head_false {α : Type} (p : α → Bool) (l : List α) (c : α)
    (cr : List α) (h : l.dropWhile p = c :: cr) : p c = false := by
  induction l with
  | nil => simp at h
  | cons x xs ih =>
    rw [List.dropWhile_cons] at h
    by_cases hx : p x
    · exact ih (by simpa [hx] using h)
    · rw [if_neg (by simpa using hx)] at h
      cases h
      simpa using hx

theorem stripTailWordJS_spec (t : List Char) (hws : t.any isJsWs = true) :
    ∃ d2 d1, t = stripTailWordJS t ++ d2 ++ d1 ∧ d2 ≠ [] ∧
      (∀ c ∈ d2, isJsWs c = true) ∧ (∀ c ∈ d1, isJsWs c = false) ∧
      (∀ lst, (stripTailWordJS t).getLast? = some lst → isJsWs lst = false) := by
  have hr1ne : t.reverse.dropWhile (fun c => !isJsWs c) ≠ [] := by
    intro hnil
    rw [List.dropWhile_eq_nil_iff] at hnil
    obtain ⟨c, hc, hcw⟩ := List.any_eq_true.mp hws
    have := hnil c (List.mem_reverse.mpr hc)
    simp [hcw] at this
  obtain ⟨h1, r1t, hr1eq⟩ := List.exists_cons_of_ne_nil hr1ne
  have hstrip : stripTailWordJS t =
      ((t.reverse.dropWhile (fun c => !isJsWs c)).dropWhile isJsWs).reverse := by
    rw [stripTailWordJS, hr1eq]
  refine ⟨((t.reverse.dropWhile (fun c => !isJsWs c)).takeWhile isJsWs).reverse,
    (t.reverse.takeWhile (fun c => !isJsWs c)).reverse, ?_, ?_, ?_, ?_, ?_⟩
  · rw [hstrip]
    have e1 : t.reverse.takeWhile (fun c => !isJsWs c) ++
        t.reverse.dropWhile (fun c => !isJsWs c) = t.reverse :=
      List.takeWhile_append_dropWhile _ _
    have e2 : (t.reverse.dropWhile (fun c => !isJsWs c)).takeWhile isJsWs ++
        (t.reverse.dropWhile (fun c => !isJsWs c)).dropWhile isJsWs =
        t.reverse.dropWhile (fun c => !isJsWs c) :=
      List.takeWhile_append_dropWhile _ _
    symm
    rw [← List.reverse_append, ← List.reverse_append, e2, e1, List.reverse_reverse]
  · have hh1 : isJsWs h1 = true := by
      have := dropWhile_head_false (fun c => !isJsWs c) t.reverse h1 r1t hr1eq
      simpa using this
    rw [hr1eq, List.takeWhile_cons, hh1]
    simp
  · intro c hc
    rw [List.mem_reverse] at hc
    exact List.mem_takeWhile_imp hc
  · intro c hc
    rw [List.mem_reverse] at hc
    have := List.mem_takeWhile_imp hc
    simpa using this
  · intro lst hlst
    rw [hstrip, List.getLast?_reverse] at hlst
    obtain ⟨rt, hrt⟩ : ∃ rt, ((t.reverse.dropWhile (fun c => !isJsWs c)).dropWhile isJsWs)
        = lst :: rt := by
      cases hcase : ((t.reverse.dropWhile (fun c => !isJsWs c)).dropWhile isJsWs) with
      | nil => rw [hcase] at hlst; simp at hlst
      | cons a b => rw [hcase] at hlst; simp at hlst; exact ⟨b, by rw [hlst]⟩
    exact dropWhile_head_false isJsWs _ lst rt hrt

/-- C7 (amended): when a context string longer than maxChars is truncated and
the maxChars-character prefix contains at least one white-space character,
the truncation functions return that prefix cut back to a white-space
boundary with the marker appended: the kept text is a prefix of the input
shorter than maxChars, the input character right after it is white space, and
its own last character is not white space, so no word of the input is split.
(Without white space in the prefix the regex does not match and the cut is
mid-word; see the counterexample of the unamended claim.) -/
theorem truncation_cuts_at_whitespace (s : String) (maxChars : Nat)
    (hlen : maxChars < s.data.length)
    (hws : (s.data.take maxChars).any isJsWs = true) :
    takeContextLimit s maxChars =
      String.mk (stripTailWordJS (s.data.take maxChars)) ++ "\n…" ∧
    cutAtWs s maxChars =
      String.mk (stripTailWordJS (s.data.take maxChars)) ++ "\n…" ∧
    stripTailWordJS (s.data.take maxChars) <+: s.data ∧
    (stripTailWordJS (s.data.take maxChars)).length < maxChars ∧
    (∀ c, s.data[(stripTailWordJS (s.data.take maxChars)).length]? = some c →
      isJsWs c = true) ∧
    (∀ lst, (stripTailWordJS (s.data.take maxChars)).getLast? = some lst →
      isJsWs lst = false) := by
  obtain ⟨d2, d1, hdec, hd2ne, hd2ws, _hd1, hlast⟩ :=
    stripTailWordJS_spec (s.data.take maxChars) hws
  have hsne : s ≠ "" := by
    intro hcon
    rw [hcon] at hlen
    simp at hlen
  have htake : (s.data.take maxChars).length = maxChars := by
    rw [List.length_take]
    omega
  have hwlen : (stripTailWordJS (s.data.take maxChars)).length < maxChars := by
    have := congrArg List.length hdec
    simp only [List.length_append] at this
    have hd2 : 0 < d2.length := List.length_pos.mpr hd2ne
    omega
  refine ⟨?_, rfl, ?_, hwlen, ?_, hlast⟩
  · rw [takeContextLimit, if_neg hsne, if_neg (by omega)]
    rfl
  · have h1 : stripTailWordJS (s.data.take maxChars) <+: s.data.take maxChars :=
      ⟨d2 ++ d1, by rw [← List.append_assoc, ← hdec]⟩
    exact h1.trans ⟨s.data.drop maxChars, List.take_append_drop maxChars s.data⟩
  · intro c hc
    set w := stripTailWordJS (s.data.take maxChars) with hw
    have hidx : (s.data.take maxChars)[w.length]? = s.data[w.length]? := by
      rw [List.getElem?_take, if_pos hwlen]
    rw [← hidx, hdec, List.append_assoc,
      List.getElem?_append_right (le_refl w.length), Nat.sub_self] at hc
    obtain ⟨a, d2t, rfl⟩ := List.exists_cons_of_ne_nil hd2ne
    simp at hc
    exact hc ▸ hd2ws a (by simp)

/-- Counterexample to C7 as stated: a single word longer than the budget has
no white space in its truncated prefix, the replace regex does not match, and
the word is split mid-way: the kept text ends inside the word, the next input
character being the letter a, not white space and not the marker. -/
theorem truncation_splits_single_long_word :
    takeContextLimit "aaaaa" 3 = "aaa\n…" ∧
    "aaaaa".data[3]? = some 'a' ∧ isJsWs 'a' = false := by decide

/-- Witness for the amended C7 at a concrete string with a space inside the
truncated prefix. -/
theorem truncation_cuts_at_whitespace_witness :
    takeContextLimit "ab cde" 4 =
      String.mk (stripTailWordJS ("ab cde".data.take 4)) ++ "\n…" ∧
    (stripTailWordJS ("ab cde".data.take 4)).length < 4 :=
  ⟨(truncation_cuts_at_whitespace "ab cde" 4 (by decide) (by decide)).1,
   (truncation_cuts_at_whitespace "ab cde" 4 (by decide) (by decide)).2.2.2.1⟩

theorem cb_short (l : List Char) (h : l.length ≤ 2) : containsBreak l = false := by
  induction l with
  | nil => rfl
  | cons x t ih =>
    rw [containsBreak, Bool.or_eq_false_iff]
    rw [List.length_cons] at h
    refine ⟨?_, ih (by omega)⟩
    rw [startsBreak, decide_eq_false_iff_not]
    intro hcon
    have hl : (List.take 3 (x :: t)).length = 3 := by rw [hcon]; rfl
    rw [List.length_take, List.length_cons] at hl
    omega

theorem cb_mono (xs ys : List Char) (h : containsBreak xs = true) :
    containsBreak (xs ++ ys) = true := by
  induction xs with
  | nil => simp [containsBreak] at h
  | cons x t ih =>
    rw [containsBreak, Bool.or_eq_true] at h
    have hgoal : containsBreak ((x :: t) ++ ys) =
        (startsBreak ((x :: t) ++ ys) || containsBreak (t ++ ys)) := by
      rw [List.cons_append, containsBreak]
    rcases h with h | h
    · rw [hgoal, Bool.or_eq_true]
      left
      rw [startsBreak, decide_eq_true_iff] at h ⊢
      have hlen : 3 ≤ (x :: t).length := by
        have hl : (List.take 3 (x :: t)).length = 3 := by rw [h]; rfl
        rw [List.length_take, List.length_cons] at hl
        rw [List.length_cons]
        omega
      rw [List.take_append_of_le_length hlen, h]
    · rw [hgoal, Bool.or_eq_true]
      right
      exact ih h

theorem cb_append (xs ys : List Char) :
    containsBreak (xs ++ ys) =
      (containsBreak (xs ++ ys.take 2) || containsBreak ys) := by
  induction xs with
  | nil =>
    simp only [List.nil_append]
    rw [cb_short (ys.take 2) (by simp [List.length_take])]
    simp
  | cons x t ih =>
    have h1 : containsBreak ((x :: t) ++ ys) =
        (startsBreak ((x :: t) ++ ys) || containsBreak (t ++ ys)) := by
      rw [List.cons_append, containsBreak]
    have h2 : containsBreak ((x :: t) ++ ys.take 2) =
        (startsBreak ((x :: t) ++ ys.take 2) || containsBreak (t ++ ys.take 2)) := by
      rw [List.cons_append, containsBreak]
    have hsb : startsBreak ((x :: t) ++ ys) = startsBreak ((x :: t) ++ ys.take 2) := by
      rw [startsBreak, startsBreak]
      have heq : ((x :: t) ++ ys).take 3 = ((x :: t) ++ ys.take 2).take 3 := by
        rw [List.take_append_eq_append_take, List.take_append_eq_append_take,
          List.take_take]
        congr 1
        have hmin : min (3 - (x :: t).length) 2 = 3 - (x :: t).length := by
          rw [List.length_cons]
          omega
        rw [hmin]
      rw [heq]
    rw [h1, h2, hsb, ih, Bool.or_assoc]

theorem splitRawKB_ne_nil : ∀ cs acc, splitRawKB cs acc ≠ [] := by
  intro cs acc
  induction cs, acc using splitRawKB.induct with
  | case1 acc => simp [splitRawKB]
  | case2 rest acc ih => simp [splitRawKB]
  | case3 c rest acc h ih =>
    rw [splitRawKB]
    · exact ih
    · exact h

theorem splitRawKB_join : ∀ cs acc,
    joinSep ['\n'] (splitRawKB cs acc) = acc.reverse ++ cs := by
  intro cs acc
  induction cs, acc using splitRawKB.induct with
  | case1 acc => simp [splitRawKB, joinSep]
  | case2 rest acc ih =>
    rw [splitRawKB]
    cases hS : splitRawKB ('#' :: ' ' :: rest) [] with
    | nil => exact absurd hS (splitRawKB_ne_nil _ _)
    | cons z zs =>
      rw [hS] at ih
      rw [joinSep, ih]
      simp
  | case3 c rest acc h ih =>
    rw [splitRawKB]
    · rw [ih]
      simp
    · exact h

theorem splitRawKB_noBreak : ∀ cs acc,
    containsBreak (acc.reverse ++ cs.take 2) = false →
    ∀ p ∈ splitRawKB cs acc, containsBreak p = false := by
  intro cs acc
  induction cs, acc using splitRawKB.induct with
  | case1 acc =>
    intro h p hp
    simp only [splitRawKB, List.mem_singleton] at hp
    subst hp
    simpa using h
  | case2 rest acc ih =>
    intro h p hp
    rw [splitRawKB] at hp
    rcases List.mem_cons.mp hp with rfl | hp2
    · by_contra hcb
      rw [Bool.not_eq_false] at hcb
      rw [cb_mono acc.reverse (('\n' :: '#' :: ' ' :: rest).take 2) hcb] at h
      exact Bool.true_eq_false.mp h
    · refine ih ?_ p hp2
      simp [containsBreak, startsBreak, List.take]
  | case3 c rest acc hno ih =>
    intro h p hp
    rw [splitRawKB] at hp
    · refine ih ?_ p hp
      have hgoal : (c :: acc).reverse ++ rest.take 2 =
          acc.reverse ++ (c :: rest.take 2) := by
        simp
      rw [hgoal, cb_append acc.reverse (c :: rest.take 2)]
      have hshape : (c :: rest.take 2).take 2 = c :: rest.take 1 := by
        show c :: (rest.take 2).take 1 = c :: rest.take 1
        rw [List.take_take]
        norm_num
      have hh : containsBreak (acc.reverse ++ (c :: rest.take 1)) = false := h
      have hc2 : containsBreak (c :: rest.take 2) = false := by
        rw [containsBreak, Bool.or_eq_false_iff]
        refine ⟨?_, cb_short _ (by simp [List.length_take])⟩
        rw [startsBreak, decide_eq_false_iff_not]
        intro hcon
        have hlen : (c :: rest.take 2).take 3 = c :: rest.take 2 := by
          apply List.take_of_length_le
          simp [List.length_take]
        rw [hlen] at hcon
        have hc : c = '\n' := by
          have := congrArg (fun l => l.headD ' ') hcon
          simpa using this
        have htl : rest.take 2 = ['#', ' '] := by
          have := congrArg List.tail hcon
          simpa using this
        obtain ⟨r1, rest1, hrest⟩ : ∃ r1 rest1, rest = r1 :: rest1 := by
          cases rest with
          | nil => simp at htl
          | cons a b => exact ⟨a, b, rfl⟩
        obtain ⟨r2, rest2, hrest2⟩ : ∃ r2 rest2, rest1 = r2 :: rest2 := by
          cases rest1 with
          | nil => rw [hrest] at htl; simp [List.take] at htl
          | cons a b => exact ⟨a, b, rfl⟩
        rw [hrest, hrest2] at htl
        simp [List.take] at htl
        exact hno rest2 hc (by rw [hrest, hrest2, htl.1, htl.2])
      rw [hshape, hh, hc2]
      rfl
    · exact hno

theorem splitRawKB_head : ∀ cs acc, ∃ t rest2,
    splitRawKB cs acc = (acc.reverse ++ t) :: rest2 := by
  intro cs acc
  induction cs, acc using splitRawKB.induct with
  | case1 acc => exact ⟨[], [], by simp [splitRawKB]⟩
  | case2 rest acc ih =>
    exact ⟨[], splitRawKB ('#' :: ' ' :: rest) [], by rw [splitRawKB]; simp⟩
  | case3 c rest acc hno ih =>
    obtain ⟨t, rest2, heq⟩ := ih
    refine ⟨c :: t, rest2, ?_⟩
    rw [splitRawKB]
    · rw [heq]
      simp
    · exact hno

theorem splitRawKB_tail_start : ∀ cs acc,
    ∀ p ∈ (splitRawKB cs acc).tail, p.take 2 = ['#', ' '] := by
  intro cs acc
  induction cs, acc using splitRawKB.induct with
  | case1 acc => intro p hp; simp [splitRawKB] at hp
  | case2 rest acc ih =>
    intro p hp
    rw [splitRawKB, List.tail_cons] at hp
    have hstep : splitRawKB ('#' :: ' ' :: rest) [] = splitRawKB rest [' ', '#'] := by
      rw [splitRawKB]
      · rw [splitRawKB]
        exact fun r1 hC => by simp at hC
      · exact fun r1 hC => by simp at hC
    obtain ⟨t, rest2, hhead⟩ := splitRawKB_head rest [' ', '#']
    rw [hstep, hhead] at hp
    rcases List.mem_cons.mp hp with rfl | hp2
    · simp [List.take]
    · have := ih
      rw [hstep, hhead, List.tail_cons] at this
      exact this p hp2
  | case3 c rest acc hno ih =>
    intro p hp
    rw [splitRawKB] at hp
    · exact ih p hp
    · exact hno

/-- C2 (amended): the chunk splitter cuts the document exactly at each line
feed immediately followed by a single number sign and a space; joining the
raw fragments with line feeds reconstructs the document; no fragment contains
an interior such heading boundary (so no chunk holds two of these headings
and every such heading starts a new chunk); every fragment after the first
starts with the number-sign-space marker; and the published chunks are the
trimmed non-empty fragments in document order. Headings with two to six
number signs, or without a following space, do not cause a split. -/
theorem chunk_splitter_amended (text : String) :
    chunkTextBySection text =
      ((splitRawKB text.data []).map (fun cs => jsTrim (String.mk cs))).filter
        (fun s => s ≠ "") ∧
    joinSep ['\n'] (splitRawKB text.data []) = text.data ∧
    (∀ p ∈ splitRawKB text.data [], containsBreak p = false) ∧
    (∀ p ∈ (splitRawKB text.data []).tail, p.take 2 = ['#', ' ']) := by
  refine ⟨rfl, splitRawKB_join text.data [], ?_, splitRawKB_tail_start text.data []⟩
  intro p hp
  refine splitRawKB_noBreak text.data [] ?_ p hp
  simp only [List.reverse_nil, List.nil_append]
  exact cb_short _ (by simp [List.length_take])

/-- Counterexample to C2 as stated: a document with a level-two heading is
not split there (one single chunk comes back), although that chunk contains
two lines matching the one-to-six-number-sign heading pattern of the claim,
contradicting both the split-at-every-heading clause and the at-most-one
heading-line-per-chunk clause. -/
theorem chunk_splitter_counterexample :
    chunkTextBySection "# a\n## b\nc" = ["# a\n## b\nc"] ∧
    ((splitNewlines "# a\n## b\nc").filter specHeadingLine).length = 2 := by decide

/-- Witness for the amended C2 on a concrete document with a preamble. -/
theorem chunk_splitter_amended_witness :
    containsBreak "intro".data = false ∧
    joinSep ['\n'] (splitRawKB "intro\n# A\nx".data []) = "intro\n# A\nx".data :=
  ⟨(chunk_splitter_amended "intro\n# A\nx").2.2.1 "intro".data (by decide),
   (chunk_splitter_amended "intro\n# A\nx").2.1⟩

theorem findIdxFrom_some (p : String → Bool) :
    ∀ (ls : List String) (i j : Nat), findIdxFrom p i ls = some j →
      i ≤ j ∧ j - i < ls.length ∧
      (∃ l, ls[j - i]? = some l ∧ p l = true) ∧
      (∀ k, k < j - i → ∀ l, ls[k]? = some l → p l = false) := by
  intro ls
  induction ls with
  | nil => intro i j h; simp [findIdxFrom] at h
  | cons x xs ih =>
    intro i j h
    rw [findIdxFrom] at h
    by_cases hx : p x
    · rw [if_pos hx] at h
      cases h
      refine ⟨le_refl i, by simp, ⟨x, by simp, hx⟩, ?_⟩
      intro k hk
      omega
    · rw [if_neg hx] at h
      obtain ⟨h1, h2, ⟨l, hl, hpl⟩, h4⟩ := ih (i + 1) j h
      refine ⟨by omega, by simp; omega, ?_, ?_⟩
      · refine ⟨l, ?_, hpl⟩
        have hji : j - i = (j - (i + 1)) + 1 := by omega
        rw [hji]
        simpa using hl
      · intro k hk l2 hl2
        cases k with
        | zero =>
          simp at hl2
          rw [← hl2]
          simpa using hx
        | succ k2 =>
          refine h4 k2 (by omega) l2 ?_
          simpa using hl2

theorem findIdxFrom_none (p : String → Bool) :
    ∀ (ls : List String) (i : Nat), findIdxFrom p i ls = none →
      ∀ l ∈ ls, p l = false := by
  intro ls
  induction ls with
  | nil => intro i h l hl; simp at hl
  | cons x xs ih =>
    intro i h l hl
    rw [findIdxFrom] at h
    by_cases hx : p x
    · rw [if_pos hx] at h; cases h
    · rw [if_neg hx] at h
      rcases List.mem_cons.mp hl with rfl | hl2
      · simpa using hx
      · exact ih (i + 1) h l hl2

/-- C3: with strict knowledge-base mode on, a query matching the menu keyword
pattern against a document whose menu section exists (its header found and
the section not blank) makes the lexical retriever return that entire section
verbatim, truncated only when longer than maxChars, regardless of any
token-overlap score: the section runs from the first header line matching the
menu pattern up to, not including, the next header line (or the end of the
document), earlier lines contain no menu header, and the interior lines are
not headers. -/
theorem menu_section_shortcut (seg : String → List String) (wc : Char → Bool)
    (raw q : String) (maxChars : Nat)
    (hq : menuLike q = true)
    (hsec : jsTrim (getSectionByHeader raw menuLike) ≠ "") :
    extractRelevantContext seg wc raw q maxChars true =
      (if maxChars < (getSectionByHeader raw menuLike).data.length
       then cutAtWs (getSectionByHeader raw menuLike) maxChars
       else getSectionByHeader raw menuLike) ∧
    ∃ s e, s < e ∧ e ≤ (splitNewlines raw).length ∧
      getSectionByHeader raw menuLike =
        joinSepStr "\n" (((splitNewlines raw).drop s).take (e - s)) ∧
      (∃ l, (splitNewlines raw)[s]? = some l ∧ isHeaderLine l = true ∧
        menuLike l = true) ∧
      (∀ k, s < k → k < e → ∀ l, (splitNewlines raw)[k]? = some l →
        isHeaderLine l = false) ∧
      (e = (splitNewlines raw).length ∨
        ∃ l, (splitNewlines raw)[e]? = some l ∧ isHeaderLine l = true) ∧
      (∀ k, k < s → ∀ l, (splitNewlines raw)[k]? = some l →
        (isHeaderLine l && menuLike l) = false) := by
  have hraw : raw ≠ "" := by
    rintro rfl
    exact hsec (by decide)
  constructor
  · rw [extractRelevantContext, if_neg hraw]
    simp only [hq, Bool.and_self, if_true]
    rw [if_pos hsec]
  · cases hfind : findIdxFrom (fun l => isHeaderLine l && menuLike l) 0
        (splitNewlines raw) with
    | none =>
      exfalso
      apply hsec
      rw [getSectionByHeader]
      simp only [hfind]
      rfl
    | some s =>
      obtain ⟨_, hs2, ⟨l, hls, hpl⟩, hmin⟩ :=
        findIdxFrom_some _ (splitNewlines raw) 0 s hfind
      rw [Nat.sub_zero] at hs2 hls
      rw [Bool.and_eq_true] at hpl
      cases hfind2 : findIdxFrom isHeaderLine (s + 1)
          ((splitNewlines raw).drop (s + 1)) with
      | none =>
        refine ⟨s, (splitNewlines raw).length, hs2, le_refl _, ?_, ?_, ?_, ?_, ?_⟩
        · rw [getSectionByHeader]
          simp only [hfind, hfind2]
        · exact ⟨l, hls, hpl.1, hpl.2⟩
        · intro k hk1 hk2 l2 hl2
          have hdrop : ((splitNewlines raw).drop (s + 1))[k - (s + 1)]? = some l2 := by
            rw [List.getElem?_drop]
            have : s + 1 + (k - (s + 1)) = k := by omega
            rw [this]
            exact hl2
          exact findIdxFrom_none isHeaderLine _ (s + 1) hfind2 l2
            (List.getElem?_mem hdrop)
        · exact Or.inl rfl
        · intro k hk l2 hl2
          exact hmin k (by omega) l2 hl2
      | some e =>
        obtain ⟨he1, he2, ⟨l2, hle, hpl2⟩, hmin2⟩ :=
          findIdxFrom_some isHeaderLine _ (s + 1) e hfind2
        rw [List.getElem?_drop] at hle
        have hle2 : (splitNewlines raw)[e]? = some l2 := by
          have : s + 1 + (e - (s + 1)) = e := by omega
          rw [this] at hle
          exact hle
        rw [List.length_drop] at he2
        refine ⟨s, e, by omega, by omega, ?_, ?_, ?_, ?_, ?_⟩
        · rw [getSectionByHeader]
          simp only [hfind, hfind2]
        · exact ⟨l, hls, hpl.1, hpl.2⟩
        · intro k hk1 hk2 l3 hl3
          have hdrop : ((splitNewlines raw).drop (s + 1))[k - (s + 1)]? = some l3 := by
            rw [List.getElem?_drop]
            have : s + 1 + (k - (s + 1)) = k := by omega
            rw [this]
            exact hl3
          exact hmin2 (k - (s + 1)) (by omega) l3 hdrop
        · exact Or.inr ⟨l2, hle2, hpl2⟩
        · intro k hk l3 hl3
          exact hmin k (by omega) l3 hl3

/-- Witness for C3: a menu query against a small document returns the whole
menu section verbatim. -/
theorem menu_section_shortcut_witness :
    extractRelevantContext (fun s => [s]) (fun c => c.isAlphanum)
        "# Menu\nrice 10\n# Contact\ntel 1" "menu" 100 true = "# Menu\nrice 10" :=
  ((menu_section_shortcut (fun s => [s]) (fun c => c.isAlphanum)
      "# Menu\nrice 10\n# Contact\ntel 1" "menu" 100 (by decide) (by decide)).1).trans
    (by decide)

theorem scoredLinesAux_idx (seg : String → List String) (wc : Char → Bool)
    (qSet : List String) (askKB : Bool) :
    ∀ (i : Nat) (ls : List String) (p : Nat × ℚ),
      p ∈ scoredLinesAux seg wc qSet askKB i ls → i ≤ p.1 := by
  intro i ls
  induction ls generalizing i with
  | nil => intro p hp; simp [scoredLinesAux] at hp
  | cons l ls2 ih =>
    intro p hp
    rw [scoredLinesAux] at hp
    by_cases h1 : tokenize seg wc l = []
    · rw [if_pos h1] at hp
      have := ih (i + 1) p hp
      omega
    · rw [if_neg h1] at hp
      by_cases h2 : 0 < lineScore seg wc qSet askKB l
      · rw [if_pos h2] at hp
        rcases List.mem_cons.mp hp with rfl | hp2
        · simp
        · have := ih (i + 1) p hp2
          omega
      · rw [if_neg h2] at hp
        have := ih (i + 1) p hp
        omega

theorem scoredLinesAux_pos (seg : String → List String) (wc : Char → Bool)
    (qSet : List String) (askKB : Bool) :
    ∀ (i : Nat) (ls : List String) (p : Nat × ℚ),
      p ∈ scoredLinesAux seg wc qSet askKB i ls → 0 < p.2 := by
  intro i ls
  induction ls generalizing i with
  | nil => intro p hp; simp [scoredLinesAux] at hp
  | cons l ls2 ih =>
    intro p hp
    rw [scoredLinesAux] at hp
    by_cases h1 : tokenize seg wc l = []
    · rw [if_pos h1] at hp
      exact ih (i + 1) p hp
    · rw [if_neg h1] at hp
      by_cases h2 : 0 < lineScore seg wc qSet askKB l
      · rw [if_pos h2] at hp
        rcases List.mem_cons.mp hp with rfl | hp2
        · exact h2
        · exact ih (i + 1) p hp2
      · rw [if_neg h2] at hp
        exact ih (i + 1) p hp

theorem scoredLinesAux_pairwise (seg : String → List String) (wc : Char → Bool)
    (qSet : List String) (askKB : Bool) :
    ∀ (i : Nat) (ls : List String),
      (scoredLinesAux seg wc qSet askKB i ls).Pairwise (fun a b => a.1 < b.1) := by
  intro i ls
  induction ls generalizing i with
  | nil => simp [scoredLinesAux]
  | cons l ls2 ih =>
    rw [scoredLinesAux]
    by_cases h1 : tokenize seg wc l = []
    · rw [if_pos h1]
      exact ih (i + 1)
    · rw [if_neg h1]
      by_cases h2 : 0 < lineScore seg wc qSet askKB l
      · rw [if_pos h2, List.pairwise_cons]
        refine ⟨?_, ih (i + 1)⟩
        intro p hp
        have := scoredLinesAux_idx seg wc qSet askKB (i + 1) ls2 p hp
        simp
        omega
      · rw [if_neg h2]
        exact ih (i + 1)

theorem orderedInsert_lex (x : Nat × ℚ) (l : List (Nat × ℚ))
    (hl : l.Pairwise (fun a b => b.2 < a.2 ∨ (a.2 = b.2 ∧ a.1 < b.1)))
    (hx : ∀ y ∈ l, x.1 < y.1) :
    (List.orderedInsert descR x l).Pairwise
      (fun a b => b.2 < a.2 ∨ (a.2 = b.2 ∧ a.1 < b.1)) := by
  induction l with
  | nil => simp [List.orderedInsert]
  | cons y ys ih =>
    rw [List.orderedInsert]
    by_cases hr : descR x y
    · rw [if_pos hr]
      rw [List.pairwise_cons]
      refine ⟨?_, hl⟩
      intro z hz
      have hyx : y.2 ≤ x.2 := hr
      rcases List.mem_cons.mp hz with rfl | hz2
      · rcases lt_or_eq_of_le hyx with h | h
        · exact Or.inl h
        · exact Or.inr ⟨h.symm, hx z (by simp)⟩
      · have hyz := (List.pairwise_cons.mp hl).1 z hz2
        rcases hyz with h | h
        · exact Or.inl (lt_of_lt_of_le h hyx)
        · have hzx : z.2 ≤ x.2 := h.1 ▸ hyx
          rcases lt_or_eq_of_le hzx with h2 | h2
          · exact Or.inl h2
          · exact Or.inr ⟨h2.symm, hx z (List.mem_cons_of_mem y hz2)⟩
    · rw [if_neg hr]
      rw [List.pairwise_cons]
      refine ⟨?_, ih (List.pairwise_cons.mp hl).2
        (fun y2 hy2 => hx y2 (List.mem_cons_of_mem y hy2))⟩
      intro z hz
      rcases (List.mem_orderedInsert descR).mp hz with rfl | hz3
      · exact Or.inl (not_le.mp hr)
      · exact (List.pairwise_cons.mp hl).1 z hz3

theorem insertionSort_lex (l : List (Nat × ℚ))
    (hl : l.Pairwise (fun a b => a.1 < b.1)) :
    (List.insertionSort descR l).Pairwise
      (fun a b => b.2 < a.2 ∨ (a.2 = b.2 ∧ a.1 < b.1)) := by
  induction l with
  | nil => simp [List.insertionSort]
  | cons x xs ih =>
    rw [List.insertionSort]
    apply orderedInsert_lex
    · exact ih (List.pairwise_cons.mp hl).2
    · intro y hy
      exact (List.pairwise_cons.mp hl).1 y ((List.mem_insertionSort descR).mp hy)

/-- C4: in the general token-overlap case of the lexical retriever, only
lines with strictly positive score are kept; the sort is a permutation of the
scored lines that is strictly descending by score with ties ordered by line
number (stability: equal scores keep document order, since the scored lines
carry strictly increasing indices); and when any line scores positive, the
result is the top three anchors of that sort, each expanded into its clamped
eleven-line window (five lines before the anchor up to, not including, six
lines after), joined with the separator marker, then truncated to maxChars. -/
theorem lexical_general_case (seg : String → List String) (wc : Char → Bool)
    (raw q : String) (maxChars : Nat) (askKB : Bool) :
    (∀ p ∈ scoredLines seg wc raw q askKB, 0 < p.2) ∧
    List.Perm (List.insertionSort descR (scoredLines seg wc raw q askKB))
      (scoredLines seg wc raw q askKB) ∧
    (List.insertionSort descR (scoredLines seg wc raw q askKB)).Pairwise
      (fun a b => b.2 < a.2 ∨ (a.2 = b.2 ∧ a.1 < b.1)) ∧
    (scoredLines seg wc raw q askKB ≠ [] →
      lexGeneral seg wc raw q maxChars askKB =
        (let ctx := joinSepStr "\n---\n"
            (((List.insertionSort descR (scoredLines seg wc raw q askKB)).take 3).map
              (fun a => anchorWindow (splitNewlines raw) a.1))
         if maxChars < ctx.data.length then cutAtWs ctx maxChars else ctx)) ∧
    (∀ i, anchorWindow (splitNewlines raw) i =
      joinSepStr "\n" (((splitNewlines raw).drop (i - 5)).take
        (min (splitNewlines raw).length (i + 6) - (i - 5)))) := by
  refine ⟨?_, List.perm_insertionSort descR _, ?_, ?_, fun i => rfl⟩
  · intro p hp
    exact scoredLinesAux_pos seg wc ((tokenize seg wc q).dedup) askKB 0
      (splitNewlines raw) p hp
  · exact insertionSort_lex _
      (scoredLinesAux_pairwise seg wc ((tokenize seg wc q).dedup) askKB 0
        (splitNewlines raw))
  · intro hne
    rw [lexGeneral, if_neg hne]

/-- Witness for C4 on a small document where one line scores positive. -/
theorem lexical_general_case_witness :
    scoredLines (fun s => [s]) (fun c => c.isAlphanum) "a b\nc" "b" false
      = [((0 : Nat), (1 : ℚ))] ∧
    lexGeneral (fun s => [s]) (fun c => c.isAlphanum) "a b\nc" "b" 2000 false
      = "a b\nc" := by
  have htok1 : tokenize (fun s => [s]) (fun c => c.isAlphanum) "a b" = ["a", "b"] := by
    decide
  have htok2 : tokenize (fun s => [s]) (fun c => c.isAlphanum) "c" = ["c"] := by decide
  have hded : (tokenize (fun s => [s]) (fun c => c.isAlphanum) "b").dedup = ["b"] := by
    decide
  have hlines : splitNewlines "a b\nc" = ["a b", "c"] := by decide
  have hcol1 : hasFactColon "a b".data = false := by decide
  have hcol2 : hasFactColon "c".data = false := by decide
  have hhp1 : hasHoursPat "a b".data = false := by decide
  have hhp2 : hasHoursPat "c".data = false := by decide
  have hs1 : lineScore (fun s => [s]) (fun c => c.isAlphanum) ["b"] false "a b" = 1 := by
    rw [lineScore, htok1, hcol1, hhp1]
    norm_num [boosters]
  have hs2 : lineScore (fun s => [s]) (fun c => c.isAlphanum) ["b"] false "c" = 0 := by
    rw [lineScore, htok2, hcol2, hhp2]
    norm_num [boosters]
    all_goals decide
  have hscored : scoredLines (fun s => [s]) (fun c => c.isAlphanum) "a b\nc" "b" false
      = [((0 : Nat), (1 : ℚ))] := by
    rw [scoredLines, hded, hlines, scoredLinesAux, htok1]
    rw [if_neg (by simp), if_pos (by rw [hs1]; norm_num), hs1]
    rw [scoredLinesAux, htok2]
    rw [if_neg (by simp), if_neg (by rw [hs2]; norm_num)]
    rw [scoredLinesAux]
  refine ⟨hscored, ?_⟩
  refine ((lexical_general_case (fun s => [s]) (fun c => c.isAlphanum) "a b\nc" "b"
      2000 false).2.2.2.1 (by rw [hscored]; simp)).trans ?_
  rw [hscored]
  decide
